import Mathlib

set_option maxRecDepth 8000

/-!
Verification of the caption/classification/deduplication core of
`case_tracker.py` (AI Court Cases Tracker).

Text is embedded as `List Char`; Python string operations (lower, strip,
substring test, the regexes used by the tracker) are modelled as executable
functions on character lists.  Python's `re` constructs that the tracker
uses are small enough to model exactly: character-class runs, leftmost
match scanning, word boundaries, and the specific alternations appearing
in the source patterns.
-/

namespace CaseTracker

/-- Python `\s` / `str.strip()` whitespace (ASCII range, as produced by the
scraped text the tracker handles). -/
def isWS (c : Char) : Bool :=
  c = ' ' || c = '\t' || c = '\n' || c = '\x0d' || c = '\x0b' || c = '\x0c'

/-- Python `str.lower()` on the ASCII range (Char.toLower lowers A-Z only,
matching what `lower` does on the tracker's source text). -/
def lowerStr (s : List Char) : List Char := s.map Char.toLower

/-- Regex `\w`: ASCII word character. -/
def isWordChar (c : Char) : Bool :=
  ('a' ≤ c && c ≤ 'z') || ('A' ≤ c && c ≤ 'Z') || ('0' ≤ c && c ≤ '9') || c = '_'

/-- `[a-z0-9]`, the characters kept by the dedupe key regex. -/
def isKeyChar (c : Char) : Bool :=
  ('a' ≤ c && c ≤ 'z') || ('0' ≤ c && c ≤ '9')

/-- Worker for `collapseRuns`: the flag records whether the previous
character belonged to a run being replaced (so only the first character of
each maximal run emits the space). -/
def collapseAux (bad : Char → Bool) : List Char → Bool → List Char
  | [], _ => []
  | c :: rest, prevBad =>
    if bad c then
      if prevBad then collapseAux bad rest true
      else ' ' :: collapseAux bad rest true
    else c :: collapseAux bad rest false

/-- `re.sub(r"<class>+", " ", s)`: replace every maximal run of characters
satisfying `bad` by a single space. -/
def collapseRuns (bad : Char → Bool) (s : List Char) : List Char :=
  collapseAux bad s false

/-- Python `str.strip()`, leading side. -/
def stripLead (s : List Char) : List Char := s.dropWhile isWS

/-- Python `str.strip()`, trailing side. -/
def stripTrail (s : List Char) : List Char := (s.reverse.dropWhile isWS).reverse

/-- Python `str.strip()`. -/
def pyStrip (s : List Char) : List Char := stripTrail (stripLead s)

/-- The record fields that `dedupe` / `prefer_source` consult (`title`,
`summary`, `source`), plus `url` so that two scraped records can differ
while agreeing on everything the deduplicator compares.  The remaining
fields of the Python dict (`headline`, `takeaway`, `status`, `outcome`,
`case_ref`, `date`) are never read by the deduplicator. -/
structure CaseRecord where
  title : List Char
  summary : List Char
  source : List Char
  url : List Char
deriving DecidableEq

/-- `SOURCE_PREFERENCE` from the source. -/
def SOURCE_PREFERENCE : List (List Char) :=
  ["Mishcon de Reya LLP".toList, "BakerHostetler".toList,
   "McKool Smith".toList, "WIRED".toList]

/-- Python `list.index` guarded by `in`: position of the first occurrence. -/
def idxOf : List (List Char) → List Char → Option Nat
  | [], _ => none
  | x :: xs, a => if x = a then some 0 else (idxOf xs a).map (· + 1)

/-- `SOURCE_PREFERENCE.index(src) if src in SOURCE_PREFERENCE else 99`. -/
def sourcePriority (src : List Char) : Nat :=
  match idxOf SOURCE_PREFERENCE src with
  | some i => i
  | none => 99

/-- `prefer_source(a, b)` from the source: strictly smaller source-priority
index wins; on equal priority, the strictly longer summary wins. -/
def prefer_source (a b : CaseRecord) : Bool :=
  let pa := sourcePriority a.source
  let pb := sourcePriority b.source
  if pa ≠ pb then pa < pb else a.summary.length > b.summary.length

/-- The dedupe key: `re.sub(r"[^a-z0-9]+", " ", s.lower()).strip()`. -/
def normKey (s : List Char) : List Char :=
  pyStrip (collapseRuns (fun c => !(isKeyChar c)) (lowerStr s))

/-- Lookup in an association list (Python `k in best` / `best[k]`). -/
def assocFind (k : List Char) : List (List Char × CaseRecord) → Option CaseRecord
  | [] => none
  | (k', v) :: rest => if k' = k then some v else assocFind k rest

/-- Python dict assignment `best[k] = v`: replace in place if the key is
present (dicts keep insertion order), append otherwise. -/
def assocPut (k : List Char) (v : CaseRecord) :
    List (List Char × CaseRecord) → List (List Char × CaseRecord)
  | [] => [(k, v)]
  | (k', v') :: rest =>
    if k' = k then (k, v) :: rest else (k', v') :: assocPut k v rest

/-- One iteration of the `dedupe` loop body. -/
def dstep (acc : List (List Char × CaseRecord)) (it : CaseRecord) :
    List (List Char × CaseRecord) :=
  let k := normKey it.title
  if k = [] then acc
  else
    match assocFind k acc with
    | none => assocPut k it acc
    | some cur => if prefer_source it cur then assocPut k it acc else acc

/-- `dedupe(items)` from the source: fold the items into the `best` dict
and return `list(best.values())`. -/
def dedupe (items : List CaseRecord) : List CaseRecord :=
  (items.foldl dstep []).map Prod.snd

/-! ### Status / outcome classifier -/

/-- `infer_status_outcome(text)` from the source: lower the text, then walk
the if-chain of substring tests, returning the `(status, outcome)` string
pair of the first test that fires. -/
def infer_status_outcome (text : List Char) : List Char × List Char :=
  let t := lowerStr text
  if "class certification".toList <:+: t ∨ "class certified".toList <:+: t ∨
      "certify the class".toList <:+: t then
    ("Class certified".toList, "Class Certification".toList)
  else if "summary judgment".toList <:+: t ∨
      ("fair use".toList <:+: t ∧ "judgment".toList <:+: t) then
    ("Judgment".toList, "Summary Judgment".toList)
  else if "preliminary injunction".toList <:+: t ∨
      "permanent injunction".toList <:+: t ∨
      ("injunction".toList <:+: t ∧ "granted".toList <:+: t) then
    ("Injunction".toList, "Injunction".toList)
  else if "dismissed with prejudice".toList <:+: t then
    ("Dismissed".toList, "Dismissal with prejudice".toList)
  else if "dismissed".toList <:+: t ∨ "motion to dismiss granted".toList <:+: t then
    ("Dismissed".toList, "Dismissal".toList)
  else if "settled".toList <:+: t ∨ "settlement".toList <:+: t then
    ("Settled".toList, "Settlement".toList)
  else if "complaint filed".toList <:+: t ∨ "new case".toList <:+: t ∨
      "filed on".toList <:+: t then
    ("Recently filed".toList, "Update".toList)
  else
    ("Open/Active".toList, "Update".toList)

/-- The canonical status enum of the specification, in priority order. -/
inductive Status where
  | ClassCertified | Judgment | Injunction | Dismissed
  | Settled | RecentlyFiled | OpenActive
deriving DecidableEq

/-- The status string the tracker stores for each enum value. -/
def statusLabel : Status → List Char
  | .ClassCertified => "Class certified".toList
  | .Judgment => "Judgment".toList
  | .Injunction => "Injunction".toList
  | .Dismissed => "Dismissed".toList
  | .Settled => "Settled".toList
  | .RecentlyFiled => "Recently filed".toList
  | .OpenActive => "Open/Active".toList

/-- Keyword test of the `Class certified` rule, on lowered text. -/
def hitClassCert (t : List Char) : Bool :=
  decide ("class certification".toList <:+: t) ||
  (decide ("class certified".toList <:+: t) ||
   decide ("certify the class".toList <:+: t))

/-- Keyword test of the `Judgment` rule, on lowered text. -/
def hitJudgment (t : List Char) : Bool :=
  decide ("summary judgment".toList <:+: t) ||
  (decide ("fair use".toList <:+: t) && decide ("judgment".toList <:+: t))

/-- Keyword test of the `Injunction` rule, on lowered text. -/
def hitInjunction (t : List Char) : Bool :=
  decide ("preliminary injunction".toList <:+: t) ||
  (decide ("permanent injunction".toList <:+: t) ||
   (decide ("injunction".toList <:+: t) && decide ("granted".toList <:+: t)))

/-- Keyword test of the `Dismissed` rule, on lowered text (the source's two
dismissal branches assign the same status). -/
def hitDismissed (t : List Char) : Bool :=
  decide ("dismissed".toList <:+: t) ||
  decide ("motion to dismiss granted".toList <:+: t)

/-- Keyword test of the `Settled` rule, on lowered text. -/
def hitSettled (t : List Char) : Bool :=
  decide ("settled".toList <:+: t) || decide ("settlement".toList <:+: t)

/-- Keyword test of the `Recently filed` rule, on lowered text. -/
def hitFiled (t : List Char) : Bool :=
  decide ("complaint filed".toList <:+: t) ||
  (decide ("new case".toList <:+: t) || decide ("filed on".toList <:+: t))

/-- The specification's priority-ordered decision list for status. -/
def statusRules : List ((List Char → Bool) × Status) :=
  [(hitClassCert, .ClassCertified), (hitJudgment, .Judgment),
   (hitInjunction, .Injunction), (hitDismissed, .Dismissed),
   (hitSettled, .Settled), (hitFiled, .RecentlyFiled)]

/-- First-match-wins evaluation of a decision list. -/
def firstMatch (t : List Char) : List ((List Char → Bool) × Status) → Status
  | [] => .OpenActive
  | (p, st) :: rest => if p t then st else firstMatch t rest

/-- Modelled from the spec: the classifier as an ordered decision list over
the fixed priority `ClassCertified > Judgment > Injunction > Dismissed >
Settled > RecentlyFiled > OpenActive`, with `OpenActive` as default. -/
def specStatus (text : List Char) : Status :=
  firstMatch (lowerStr text) statusRules

/-! ### Takeaway generator -/

/-- `choose_takeaway(status, ctx, already_has_takeaway)` from the source. -/
def choose_takeaway (status ctx : List Char) (alreadyHas : Bool) : List Char :=
  if alreadyHas then []
  else
    let t := lowerStr ctx
    let s := lowerStr status
    if "judgment".toList <:+: s ∧ "fair use".toList <:+: t ∧
        ("pirated".toList <:+: t ∨ "shadow library".toList <:+: t ∨
         "torrent".toList <:+: t) then
      "Even if training is fair use, acquisition of pirated datasets can still create liability.".toList
    else if "judgment".toList <:+: s ∧ "fair use".toList <:+: t ∧
        "market".toList <:+: t then
      "Courts weigh harm to the market for original works more than a separate training license market.".toList
    else if "injunction".toList <:+: s then
      "Injunctions can constrain model distribution or retraining, creating leverage for ingestion guardrails.".toList
    else if "dismissed".toList <:+: s then
      "Complaints that do not connect copying to cognizable market harm risk dismissal.".toList
    else if "settled".toList <:+: s then
      "Settlements set practical value ranges even without merits rulings.".toList
    else []

/-! ### Relevance filter -/

/-- The character just before/at an index, for word-boundary tests. -/
def charAt? (s : List Char) (i : Nat) : Option Char := (s.drop i).head?

/-- Regex `\b` to the left of index `i`, for a pattern whose first character
is a word character: start of string or a non-word character before. -/
def boundaryL (s : List Char) (i : Nat) : Bool :=
  i = 0 ||
    match charAt? s (i - 1) with
    | some c => !isWordChar c
    | none => true

/-- Regex `\b` at index `j` (one past the pattern), for a pattern whose last
character is a word character: end of string or a non-word character. -/
def boundaryR (s : List Char) (j : Nat) : Bool :=
  match charAt? s j with
  | some c => !isWordChar c
  | none => true

/-- Case-insensitive match of keyword `w` (given lowercase, starting and
ending with word characters) at index `i` of `s`, with `\b` on both sides. -/
def kwAt (s w : List Char) (i : Nat) : Bool :=
  decide (((s.drop i).take w.length).map Char.toLower = w) &&
  boundaryL s i && boundaryR s (i + w.length)

/-- The alternatives of `AI_CONTEXT_PAT`, expanded (the optional groups
`gen(?:erative)?`, `scrap(?:e|ing)`, `recordings?`, `labels?` become two
alternatives each). -/
def AI_KEYWORDS : List (List Char) :=
  ["ai".toList, "artificial intelligence".toList, "gen ai".toList,
   "generative ai".toList, "llm".toList, "model".toList, "training".toList,
   "dataset".toList, "copyright".toList, "dmca".toList,
   "right of publicity".toList, "digital replica".toList, "scrape".toList,
   "scraping".toList, "music".toList, "recording".toList,
   "recordings".toList, "publisher".toList, "label".toList,
   "labels".toList]

/-- `bool(AI_CONTEXT_PAT.search(block))`: some keyword occurs somewhere in
the block with word boundaries, case-insensitively. -/
def hasAIContext (block : List Char) : Bool :=
  (List.range (block.length + 1)).any fun i =>
    AI_KEYWORDS.any fun w => kwAt block w i

/-- `AI_IP_PARTIES` from the source. -/
def AI_IP_PARTIES : List (List Char) :=
  ["OpenAI".toList, "Anthropic".toList, "Meta".toList, "Google".toList,
   "Alphabet".toList, "Midjourney".toList, "Stability AI".toList,
   "Suno".toList, "Udio".toList, "Perplexity".toList, "Cohere".toList,
   "Nvidia".toList, "Ross Intelligence".toList, "Thomson Reuters".toList,
   "Getty".toList, "Disney".toList, "Universal".toList, "UMG".toList,
   "Warner".toList, "Sony".toList, "Authors Guild".toList,
   "New York Times".toList, "Reddit".toList, "Databricks".toList,
   "LAION".toList, "GitHub".toList, "Microsoft".toList, "Bloomberg".toList,
   "IGN".toList, "Ziff Davis".toList, "Everyday Health".toList,
   "Dow Jones".toList, "NY Post".toList,
   "Center for Investigative Reporting".toList,
   "Canadian Broadcasting Corporation".toList, "Radio-Canada".toList]

/-- `any(p.lower() in hay.lower() for p in AI_IP_PARTIES)`. -/
def hasKnownParty (hay : List Char) : Bool :=
  AI_IP_PARTIES.any fun p => decide (lowerStr p <:+: lowerStr hay)

/-- The relevance gate of `extract_from_html`:
`bool(AI_CONTEXT_PAT.search(block)) or any(p.lower() in (title + " " + block).lower() ...)`. -/
def has_ai_ctx (title block : List Char) : Bool :=
  hasAIContext block || hasKnownParty (title ++ ' ' :: block)

/-! ### Caption compressor -/

/-- Fuelled worker for `stripNum` (fuel bounds the scan; it starts above the
string length, and every recursive call consumes at least one character). -/
def stripNumF : Nat → List Char → List Char
  | 0, s => s
  | _ + 1, [] => []
  | fuel + 1, c :: rest =>
    if c = '(' then
      let ds := rest.takeWhile Char.isDigit
      if ds ≠ [] ∧ (rest.drop ds.length).head? = some ')' then
        stripNumF fuel ((rest.drop (ds.length + 1)).dropWhile isWS)
      else '(' :: stripNumF fuel rest
    else c :: stripNumF fuel rest

/-- `re.sub(r"\(\d+\)\s*", "", caption)`: drop every parenthesised digit
run together with the whitespace that follows it. -/
def stripNum (s : List Char) : List Char := stripNumF (s.length + 1) s

/-- Match of `\s+v\.?\s+` starting exactly at index `i`: a nonempty
whitespace run, the literal `v`, an optional dot, and a nonempty whitespace
run; returns the index one past the match.  (The first `\s+` must run right
up to the `v`, and a dot not followed by whitespace kills the match, since
`\s+` cannot consume the dot.) -/
def vSepAt (s : List Char) (i : Nat) : Option Nat :=
  let t := s.drop i
  let w := t.takeWhile isWS
  if w = [] then none
  else
    match t.drop w.length with
    | 'v' :: '.' :: u2 =>
      let w2 := u2.takeWhile isWS
      if w2 = [] then none else some (i + w.length + 2 + w2.length)
    | 'v' :: u =>
      let w2 := u.takeWhile isWS
      if w2 = [] then none else some (i + w.length + 1 + w2.length)
    | _ => none

/-- `re.search(r"\s+v\.?\s+", cap)`: the leftmost separator match, as
`(start, end)`. -/
def findVSep (s : List Char) : Option (Nat × Nat) :=
  (List.range s.length).findSome? fun i => (vSepAt s i).map fun e => (i, e)

/-- One alternative of the `first_party` split pattern
`\s*,\s*| & | and |;|\s{2,}` matches starting at index `i`. -/
def splitHitAt (s : List Char) (i : Nat) : Bool :=
  let t := s.drop i
  decide ((t.dropWhile isWS).head? = some ',') ||
  " & ".toList.isPrefixOf t ||
  " and ".toList.isPrefixOf t ||
  decide (t.head? = some ';') ||
  (match t with
   | a :: b :: _ => isWS a && isWS b
   | _ => false)

/-- Start of the leftmost split-pattern match (`None` when the pattern never
matches, i.e. `re.split` returns the whole string as `parts[0]`). -/
def firstSplitIdx (s : List Char) : Option Nat :=
  (List.range s.length).find? fun i => splitHitAt s i

/-- `first_party(side)` from the source: `parts[0].strip()` when the first
split piece is nonempty, else `side.strip()`, then strip trailing `,`/`;`
runs (`re.sub(r"[,;]+$", "", lead)`). -/
def first_party (side : List Char) : List Char :=
  let part0 :=
    match firstSplitIdx side with
    | some i => side.take i
    | none => side
  let lead := if part0 ≠ [] then pyStrip part0 else pyStrip side
  (lead.reverse.dropWhile (fun c => c = ',' || c = ';')).reverse

/-- Match of `\bet\.?\s*al\.?` (case-insensitive) starting at index `i`:
word boundary, `et`, optional dot, whitespace run, `al`.  (A dot not
followed by optional whitespace and `al` kills the match, since `\s*`
cannot consume the dot.) -/
def etPatAt (s : List Char) (i : Nat) : Bool :=
  boundaryL s i &&
  match (s.drop i).map Char.toLower with
  | 'e' :: 't' :: u =>
    (match (match u with | '.' :: v => v | w => w).dropWhile isWS with
     | 'a' :: 'l' :: _ => true
     | _ => false)
  | _ => false

/-- `many(side)` from the source:
`re.search(r"\bet\.?\s*al\.?|,|\band\b|&", side, re.I)` or a raw length
above 60. -/
def many (side : List Char) : Bool :=
  ((List.range side.length).any fun i => etPatAt side i) ||
  side.any (· = ',') ||
  ((List.range side.length).any fun i => kwAt side "and".toList i) ||
  side.any (· = '&') ||
  decide (side.length > 60)

/-- The six characters starting at index `i` spell `et al.`
(case-insensitively, with exactly one inner space). -/
def etalTokenAt (s : List Char) (i : Nat) : Bool :=
  decide (((s.drop i).take 6).map Char.toLower = "et al.".toList)

/-- Match of `(et al\.)\s*et al\.$` (case-insensitive) starting at index
`i`: an `et al.` token, optional whitespace, and a final `et al.` token
that ends the string. -/
def collapseHitAt (s : List Char) (i : Nat) : Bool :=
  etalTokenAt s i &&
  decide ((((s.drop (i + 6)).dropWhile isWS).map Char.toLower) = "et al.".toList)

/-- `re.sub(r"(et al\.)\s*et al\.$", r"\1", side, flags=re.I)`: keep
everything up to and including the first `et al.` of the leftmost match,
dropping the duplicated tail. -/
def collapseEtal (s : List Char) : List Char :=
  match (List.range s.length).find? (fun i => collapseHitAt s i) with
  | some i => s.take (i + 6)
  | none => s

/-- One side of the compressed caption: the lead party, `" et al."` when
the side held several parties, and the duplicate-`et al.` collapse. -/
def sideOut (side : List Char) : List Char :=
  collapseEtal (first_party side ++ (if many side then " et al.".toList else []))

/-- `compress_caption(caption)` from the source. -/
def compress_caption (caption : List Char) : List Char :=
  let cap := stripNum caption
  match findVSep cap with
  | none => pyStrip cap
  | some (st, en) => sideOut (cap.take st) ++ " v ".toList ++ sideOut (cap.drop en)

/-! ### Caption matcher (`CAPTION_PAT`) -/

/-- The caption pattern's per-side character class
`[A-Za-z0-9\.\-’'& ]`. -/
def capClassChar (c : Char) : Bool :=
  ('A' ≤ c && c ≤ 'Z') || ('a' ≤ c && c ≤ 'z') || ('0' ≤ c && c ≤ '9') ||
  c = '.' || c = '-' || c = '’' || c = '\'' || c = '&' || c = ' '

/-- `[A-Z]`. -/
def isUpperAZ (c : Char) : Bool := 'A' ≤ c && c ≤ 'Z'

/-- The character at index `i` satisfies `p` (out of range: false). -/
def chIs (s : List Char) (i : Nat) (p : Char → Bool) : Bool :=
  match charAt? s i with
  | some c => p c
  | none => false

/-- Regex `\b` between indices `p - 1` and `p` (out-of-range counts as
non-word). -/
def wordBoundary (s : List Char) (p : Nat) : Bool :=
  let left := if p = 0 then false else chIs s (p - 1) isWordChar
  let right := chIs s p isWordChar
  left != right

/-- The right caption group `v\.?\s+([A-Z][class]{1,90})\b` matches when the
separator's `v` sits at index `v0`: after the optional dot a nonempty
whitespace run must lead to a capital, followed by 1–90 class characters
ending at a word boundary.  (`\s+` is forced to run exactly up to the
capital, which is not whitespace.) -/
def capRightOK (s : List Char) (v0 : Nat) : Bool :=
  let d := match charAt? s (v0 + 1) with
    | some '.' => v0 + 2
    | _ => v0 + 1
  let w := (s.drop d).takeWhile isWS
  !(decide (w = [])) &&
  (let g := d + w.length
   chIs s g isUpperAZ &&
   (let tail := s.drop (g + 1)
    (List.range 90).any fun km =>
      let k := km + 1
      decide (k ≤ tail.length) && (tail.take k).all capClassChar &&
      wordBoundary s (g + 1 + k)))

/-- The left caption group `\b([A-Z][class]{1,90})` followed by `\s+`
matches when the separator's `v` sits at index `v0`: the group's last
character sits at some `e` with only whitespace (at least one character)
between `e` and the `v`; since the class itself contains the space, `e`
ranges over the tail of the whitespace run as well as the character before
it. -/
def capLeftOK (s : List Char) (v0 : Nat) : Bool :=
  let rStart := v0 - ((s.take v0).reverse.takeWhile isWS).length
  (List.range (v0 - 1)).any fun e =>
    decide (rStart ≤ e + 1) &&
    (List.range e).any fun a =>
      decide (e - a ≤ 90) && chIs s a isUpperAZ && boundaryL s a &&
      ((s.drop (a + 1)).take (e - a)).all capClassChar

/-- `CAPTION_PAT` finds at least one match in `s`: some `v` preceded by
whitespace, with a valid left group and a valid right group around it.
(`CAPTION_PAT.finditer` yields no captions exactly when this is false.) -/
def capMatchExists (s : List Char) : Bool :=
  (List.range s.length).any fun v0 =>
    decide (charAt? s v0 = some 'v') && chIs s (v0 - 1) isWS &&
    !(decide (v0 = 0)) && capRightOK s v0 && capLeftOK s v0

/-! ### Text normalizer (`soup_sections`, lines 255-256) -/

/-- `html.unescape`, restricted to the five basic named/numeric entities
(`&amp;` `&lt;` `&gt;` `&quot;` `&#39;`).  The source delegates to the
Python standard library, whose full table covers thousands of names; on
text whose ampersands introduce only these entities (or none), this agrees
with it exactly.  Like the library, it scans left to right and does not
rescan replacement text. -/
def pyUnescapeF : Nat → List Char → List Char
  | 0, s => s
  | _ + 1, [] => []
  | fuel + 1, c :: rest =>
    if c = '&' then
      if "amp;".toList.isPrefixOf rest then '&' :: pyUnescapeF fuel (rest.drop 4)
      else if "lt;".toList.isPrefixOf rest then '<' :: pyUnescapeF fuel (rest.drop 3)
      else if "gt;".toList.isPrefixOf rest then '>' :: pyUnescapeF fuel (rest.drop 3)
      else if "quot;".toList.isPrefixOf rest then '"' :: pyUnescapeF fuel (rest.drop 5)
      else if "#39;".toList.isPrefixOf rest then '\'' :: pyUnescapeF fuel (rest.drop 4)
      else '&' :: pyUnescapeF fuel rest
    else c :: pyUnescapeF fuel rest

/-- Entry point of the unescape model (the fuel starts above the string
length and every recursive call consumes at least one character, so it
never runs out). -/
def pyUnescape (s : List Char) : List Char := pyUnescapeF (s.length + 1) s

/-- The normalization applied to every section blob:
`raw = html.unescape(raw); raw = re.sub(r"\s+", " ", raw).strip()`. -/
def normalizeText (s : List Char) : List Char :=
  pyStrip (collapseRuns isWS (pyUnescape s))

/-! ### Predicates used by the statements below -/

/-- Invariant of the dedupe fold accumulator: every entry is keyed by the
(nonempty) normalized title of its record. -/
def GoodAcc (acc : List (List Char × CaseRecord)) : Prop :=
  ∀ e ∈ acc, e.1 = normKey e.2.title ∧ e.1 ≠ []

/-- The string ends in a doubled token: an `et al.` followed only by
whitespace and a second `et al.` that closes the string. -/
def etalChainTwo (s : List Char) : Bool :=
  (List.range s.length).any fun j => collapseHitAt s j

/-- Like `etalChainTwo`, but allowing trailing whitespace after the final
token. -/
def etalChainTwoWs (s : List Char) : Bool :=
  (List.range s.length).any fun j =>
    etalTokenAt s j &&
    (let r := (s.drop (j + 6)).dropWhile isWS
     decide ((r.take 6).map Char.toLower = "et al.".toList) &&
     (r.drop 6).all isWS)

/-- The update `dedupe` applies to the record stored under one key: a new
record replaces the current one exactly when `prefer_source` prefers it. -/
def dinsert (c : Option CaseRecord) (r : CaseRecord) : Option CaseRecord :=
  match c with
  | none => some r
  | some cur => if prefer_source r cur then some r else c

/-- The per-key projection of one dedupe step: how `dstep` changes the
record stored under key `k`. -/
def keyStep (k : List Char) (c : Option CaseRecord) (it : CaseRecord) :
    Option CaseRecord :=
  if normKey it.title = k ∧ k ≠ [] then dinsert c it else c

/-- No two distinct records sharing a dedupe key tie under `prefer_source`
(a tie means equal source priority and equal summary length, in which case
`dedupe` keeps whichever of the two it met first). -/
def NoTies (l : List CaseRecord) : Prop :=
  ∀ x ∈ l, ∀ y ∈ l, normKey x.title = normKey y.title → x ≠ y →
    prefer_source x y = true ∨ prefer_source y x = true

/-! ## Claim C1: status priority order -/

/-- C1: for every context text, the classifier equals first-match evaluation
of the priority-ordered decision list `ClassCertified > Judgment >
Injunction > Dismissed > Settled > RecentlyFiled > OpenActive` (with
`OpenActive` the default); in particular any text containing both the
"class certification" and "summary judgment" keywords is classified
`Class certified`, never `Judgment`. -/
theorem status_first_match_priority (text : List Char) :
    (infer_status_outcome text).1 = statusLabel (specStatus text) ∧
    ("class certification".toList <:+: lowerStr text →
      "summary judgment".toList <:+: lowerStr text →
      specStatus text = Status.ClassCertified ∧
      (infer_status_outcome text).1 = statusLabel Status.ClassCertified ∧
      (infer_status_outcome text).1 ≠ statusLabel Status.Judgment) := by
  have heq : (infer_status_outcome text).1 = statusLabel (specStatus text) := by
    have hsub : ∀ t : List Char, "dismissed with prejudice".toList <:+: t →
        "dismissed".toList <:+: t := fun t h => List.IsInfix.trans (by decide) h
    simp only [infer_status_outcome, specStatus, statusRules, firstMatch,
      hitClassCert, hitJudgment, hitInjunction, hitDismissed, hitSettled, hitFiled,
      Bool.or_eq_true, Bool.and_eq_true, decide_eq_true_eq, statusLabel]
    split_ifs <;> first
      | rfl
      | (exact absurd (Or.inl (hsub _ ‹_›)) ‹_›)
  refine ⟨heq, fun hcc _hsj => ?_⟩
  have hspec : specStatus text = Status.ClassCertified := by
    have hhit : hitClassCert (lowerStr text) = true := by
      simp only [hitClassCert, Bool.or_eq_true, decide_eq_true_eq]
      exact Or.inl hcc
    simp [specStatus, statusRules, firstMatch, hhit]
  refine ⟨hspec, ?_, ?_⟩
  · rw [heq, hspec]
  · rw [heq, hspec]; decide

/-- Witness for C1 at a concrete text containing both keyword families. -/
theorem status_first_match_priority_witness :
    (infer_status_outcome
        "After class certification, the court heard the summary judgment motion.".toList).1 =
      statusLabel Status.ClassCertified ∧
    (infer_status_outcome
        "After class certification, the court heard the summary judgment motion.".toList).1 ≠
      statusLabel Status.Judgment := by
  have h := (status_first_match_priority
    "After class certification, the court heard the summary judgment motion.".toList).2
    (by decide) (by decide)
  exact ⟨h.2.1, h.2.2⟩

/-! ## Claim C7: relevance filter OR-semantics -/

/-- C7: the relevance gate accepts exactly when the context has at least one
AI/IP keyword or the caption/section text mentions a curated litigant: a
keyword suffices with no known party, a known party suffices with no
keyword, and both are never required together. -/
theorem relevance_or_semantics (title block : List Char) :
    has_ai_ctx title block = true ↔
      (hasAIContext block = true ∨ hasKnownParty (title ++ ' ' :: block) = true) := by
  simp [has_ai_ctx]

/-! ## Claim C8: takeaways only for ruling-like statuses -/

/-- C8: the takeaway generator returns a nonempty takeaway only for
ruling-like statuses (Judgment, Dismissed, Injunction, Settled,
ClassCertified); for Open/Active and Recently filed it always returns the
empty string, for every context text. -/
theorem takeaway_only_for_rulings (st : Status) (ctx : List Char) (alr : Bool) :
    (choose_takeaway (statusLabel st) ctx alr ≠ [] →
      st = Status.Judgment ∨ st = Status.Dismissed ∨ st = Status.Injunction ∨
      st = Status.Settled ∨ st = Status.ClassCertified) ∧
    ((st = Status.OpenActive ∨ st = Status.RecentlyFiled) →
      choose_takeaway (statusLabel st) ctx alr = []) := by
  cases st <;> cases alr <;> refine ⟨fun h => ?_, fun h => ?_⟩ <;>
    first
      | exact absurd rfl h
      | (rcases h with h | h <;> exact absurd h (by decide))
      | exact Or.inl rfl
      | exact Or.inr (Or.inl rfl)
      | exact Or.inr (Or.inr (Or.inl rfl))
      | exact Or.inr (Or.inr (Or.inr (Or.inl rfl)))
      | exact Or.inr (Or.inr (Or.inr (Or.inr rfl)))
      | rfl

/-- Witness for C8: a Judgment-status context yields a nonempty takeaway and
the implication places Judgment among the ruling-like statuses; an
Open/Active status yields the empty takeaway. -/
theorem takeaway_only_for_rulings_witness :
    (Status.Judgment = Status.Judgment ∨ Status.Judgment = Status.Dismissed ∨
      Status.Judgment = Status.Injunction ∨ Status.Judgment = Status.Settled ∨
      Status.Judgment = Status.ClassCertified) ∧
    choose_takeaway (statusLabel Status.OpenActive)
      "the court granted summary judgment on fair use and market harm".toList
      false = [] := by
  refine ⟨(takeaway_only_for_rulings Status.Judgment
      "fair use ruling weighing market harm".toList false).1 (by decide), ?_⟩
  exact (takeaway_only_for_rulings Status.OpenActive
      "the court granted summary judgment on fair use and market harm".toList
      false).2 (Or.inl rfl)

/-! ## Claim C2: source priority beats summary length in dedupe -/

/-- Unfolding of `prefer_source` as a lexicographic comparison. -/
theorem prefer_source_eq_true_iff (x y : CaseRecord) :
    prefer_source x y = true ↔
      (sourcePriority x.source < sourcePriority y.source ∨
        (sourcePriority x.source = sourcePriority y.source ∧
         y.summary.length < x.summary.length)) := by
  unfold prefer_source
  dsimp only
  split_ifs with h
  · simp only [decide_eq_true_eq]
    constructor
    · exact Or.inl
    · rintro (hlt | ⟨he, _⟩)
      · exact hlt
      · exact absurd he h
  · push_neg at h
    simp only [gt_iff_lt, decide_eq_true_eq]
    constructor
    · exact fun hl => Or.inr ⟨h, hl⟩
    · rintro (hlt | ⟨_, hl⟩)
      · omega
      · exact hl

/-- `dedupe` on a two-element duplicate group keeps the preferred record
(ties keep the first-inserted one). -/
theorem dedupe_pair (a b : CaseRecord) (hk : normKey b.title = normKey a.title)
    (hne : normKey a.title ≠ []) :
    dedupe [a, b] = if prefer_source b a then [b] else [a] := by
  have hne2 : normKey b.title ≠ [] := by rw [hk]; exact hne
  have h1 : dstep [] a = [(normKey a.title, a)] := by
    simp [dstep, hne, assocFind, assocPut]
  have h2 : dstep [(normKey a.title, a)] b =
      if prefer_source b a then [(normKey a.title, b)] else [(normKey a.title, a)] := by
    simp [dstep, hk, hne, hne2, assocFind, assocPut]
  show ((dstep (dstep [] a) b).map Prod.snd) = _
  rw [h1, h2]
  cases hp : prefer_source b a <;> simp [hp]

/-- C2: when two records share a (nonempty) dedupe key, the one whose
source has strictly smaller priority index is kept whichever order they
arrive in; only on equal priority does the longer summary win.  In
particular the priority comparison is made before any summary-length
comparison. -/
theorem dedupe_source_priority_beats_summary (a b : CaseRecord)
    (hk : normKey a.title = normKey b.title) (hne : normKey a.title ≠ []) :
    (sourcePriority a.source < sourcePriority b.source →
      dedupe [a, b] = [a] ∧ dedupe [b, a] = [a]) ∧
    (sourcePriority a.source = sourcePriority b.source →
      b.summary.length < a.summary.length →
      dedupe [a, b] = [a] ∧ dedupe [b, a] = [a]) := by
  have hne' : normKey b.title ≠ [] := by rw [← hk]; exact hne
  have hab := dedupe_pair a b hk.symm hne
  have hba := dedupe_pair b a hk hne'
  constructor
  · intro hlt
    have h1 : prefer_source b a = false := by
      cases hpf : prefer_source b a
      · rfl
      · rcases (prefer_source_eq_true_iff b a).1 hpf with h | ⟨h, _⟩ <;> omega
    have h2 : prefer_source a b = true :=
      (prefer_source_eq_true_iff a b).2 (Or.inl hlt)
    rw [hab, hba, h1, h2]
    exact ⟨rfl, rfl⟩
  · intro hpeq hlen
    have h1 : prefer_source b a = false := by
      cases hpf : prefer_source b a
      · rfl
      · rcases (prefer_source_eq_true_iff b a).1 hpf with h | ⟨_, h⟩ <;> omega
    have h2 : prefer_source a b = true :=
      (prefer_source_eq_true_iff a b).2 (Or.inr ⟨hpeq, hlen⟩)
    rw [hab, hba, h1, h2]
    exact ⟨rfl, rfl⟩

/-- Witness for C2, end-to-end scenario 4: same-key records, the
higher-priority source carrying a 40-character summary and the
lower-priority source a 900-character one; the high-priority record is
retained in both arrival orders. -/
theorem dedupe_source_priority_beats_summary_witness :
    dedupe
        [⟨"Doe v Roe".toList, List.replicate 40 'x', "BakerHostetler".toList, []⟩,
         ⟨"DOE V. ROE".toList, List.replicate 900 'y', "WIRED".toList, []⟩] =
      [⟨"Doe v Roe".toList, List.replicate 40 'x', "BakerHostetler".toList, []⟩] ∧
    dedupe
        [⟨"DOE V. ROE".toList, List.replicate 900 'y', "WIRED".toList, []⟩,
         ⟨"Doe v Roe".toList, List.replicate 40 'x', "BakerHostetler".toList, []⟩] =
      [⟨"Doe v Roe".toList, List.replicate 40 'x', "BakerHostetler".toList, []⟩] :=
  (dedupe_source_priority_beats_summary
    ⟨"Doe v Roe".toList, List.replicate 40 'x', "BakerHostetler".toList, []⟩
    ⟨"DOE V. ROE".toList, List.replicate 900 'y', "WIRED".toList, []⟩
    (by decide) (by decide)).1 (by decide)

/-! ## Claim C10: titles normalizing to the empty key are dropped -/

theorem mem_assocPut {k : List Char} {v : CaseRecord}
    {acc : List (List Char × CaseRecord)} {e : List Char × CaseRecord}
    (h : e ∈ assocPut k v acc) : e = (k, v) ∨ e ∈ acc := by
  induction acc with
  | nil =>
    simp only [assocPut, List.mem_singleton] at h
    exact Or.inl h
  | cons hd tl ih =>
    obtain ⟨k', v'⟩ := hd
    simp only [assocPut] at h
    split_ifs at h with hkk
    · rcases List.mem_cons.1 h with h | h
      · exact Or.inl h
      · exact Or.inr (List.mem_cons_of_mem _ h)
    · rcases List.mem_cons.1 h with h | h
      · exact Or.inr (h ▸ List.mem_cons_self _ _)
      · rcases ih h with h | h
        · exact Or.inl h
        · exact Or.inr (List.mem_cons_of_mem _ h)

theorem goodAcc_dstep {acc : List (List Char × CaseRecord)} (it : CaseRecord)
    (hacc : GoodAcc acc) : GoodAcc (dstep acc it) := by
  intro e he
  unfold dstep at he
  dsimp only at he
  split_ifs at he with hk
  · exact hacc e he
  · rcases hfind : assocFind (normKey it.title) acc with _ | cur <;>
      rw [hfind] at he
    · rcases mem_assocPut he with rfl | he
      · exact ⟨rfl, hk⟩
      · exact hacc e he
    · dsimp only at he
      split_ifs at he with hpref
      · rcases mem_assocPut he with rfl | he
        · exact ⟨rfl, hk⟩
        · exact hacc e he
      · exact hacc e he

theorem goodAcc_foldl (l : List CaseRecord) (acc : List (List Char × CaseRecord))
    (hacc : GoodAcc acc) : GoodAcc (l.foldl dstep acc) := by
  induction l generalizing acc with
  | nil => exact hacc
  | cons it l ih => exact ih _ (goodAcc_dstep it hacc)

/-- C10: a record whose title normalizes to the empty dedupe key (for
example a title of punctuation or whitespace only) never appears in the
output of `dedupe`, whatever else the input contains. -/
theorem dedupe_drops_empty_key_records (l : List CaseRecord) (r : CaseRecord)
    (h : normKey r.title = []) : r ∉ dedupe l := by
  intro hmem
  obtain ⟨e, he, hr⟩ := List.mem_map.1 hmem
  have hg := goodAcc_foldl l [] (by intro e he; simp at he) e he
  rw [hr, h] at hg
  exact hg.2 hg.1

/-- Witness for C10: a record titled `"?!?"` is dropped even when it is the
only input. -/
theorem dedupe_drops_empty_key_records_witness :
    normKey "?!?".toList = [] ∧
    (⟨"?!?".toList, "s".toList, "WIRED".toList, []⟩ : CaseRecord) ∉
      dedupe [⟨"?!?".toList, "s".toList, "WIRED".toList, []⟩] :=
  ⟨by decide,
   dedupe_drops_empty_key_records _ _ (by decide)⟩

/-! ## Claim C4: compressed caption shape and the missing fallback -/

/-- C4 counterexample: `compress_caption` has no placeholder fallback for a
side that reduces to a bare `et al.` token — the caption `"et al. v Foo"`
compresses to itself, exactly the output the claim says is never
produced. -/
theorem compress_caption_bare_etal_counterexample :
    compress_caption "et al. v Foo".toList = "et al. v Foo".toList := by decide

/-- C4 amended: when the numbering-stripped caption contains a
`\s+v\.?\s+` separator, the result is of the shape `<side> v <side>`
around the freshly inserted separator, but a side may be empty or a bare
`et al.` (there is no `Plaintiffs`/`Defendants` placeholder); when no
separator is found the stripped caption is returned as is, with no `v`
inserted at all. -/
theorem compress_caption_shape (caption : List Char) :
    (findVSep (stripNum caption) ≠ none →
      ∃ L R, compress_caption caption = L ++ " v ".toList ++ R) ∧
    (findVSep (stripNum caption) = none →
      compress_caption caption = pyStrip (stripNum caption)) := by
  constructor
  · intro h
    rcases hf : findVSep (stripNum caption) with _ | ⟨st, en⟩
    · exact absurd hf h
    · exact ⟨sideOut ((stripNum caption).take st),
        sideOut ((stripNum caption).drop en), by simp [compress_caption, hf]⟩
  · intro h
    simp [compress_caption, h]

/-- Witness for C4 at a caption with a separator and one without. -/
theorem compress_caption_shape_witness :
    (∃ L R, compress_caption "Doe v Roe".toList = L ++ " v ".toList ++ R) ∧
    compress_caption "no separator here".toList =
      pyStrip (stripNum "no separator here".toList) :=
  ⟨(compress_caption_shape "Doe v Roe".toList).1 (by decide),
   (compress_caption_shape "no separator here".toList).2 (by decide)⟩

/-! ## Claim C6: end-to-end scenario 1 -/

/-- C6 counterexample: on the scenario-1 input text `CAPTION_PAT` finds no
match at all — the `(1)`/`(2)` numbering markers are outside its character
classes — so the pipeline builds no record and no title; moreover even
compressing the raw text directly does not give the expected
`"Jane Doe et al. v Example AI Corp et al."`. -/
theorem scenario1_counterexample :
    capMatchExists "(1) Jane Doe (2) John Roe v. (1) Example AI Corp (2) Example Labs, a dispute over training data copyright infringement...".toList = false ∧
    compress_caption "(1) Jane Doe (2) John Roe v. (1) Example AI Corp (2) Example Labs, a dispute over training data copyright infringement...".toList ≠
      "Jane Doe et al. v Example AI Corp et al.".toList := by
  exact ⟨by decide, by decide⟩

/-- C6 amended: on the scenario-1 text the caption matcher finds nothing
(hence no record is produced), while the other two expectations of the
scenario do hold of the code: the status classifier returns `Open/Active`
and the AI-context relevance test passes. -/
theorem scenario1_amended :
    capMatchExists "(1) Jane Doe (2) John Roe v. (1) Example AI Corp (2) Example Labs, a dispute over training data copyright infringement...".toList = false ∧
    (infer_status_outcome "(1) Jane Doe (2) John Roe v. (1) Example AI Corp (2) Example Labs, a dispute over training data copyright infringement...".toList).1 =
      statusLabel Status.OpenActive ∧
    hasAIContext "(1) Jane Doe (2) John Roe v. (1) Example AI Corp (2) Example Labs, a dispute over training data copyright infringement...".toList = true := by
  exact ⟨by decide, by decide, by decide⟩

/-! ## Claim C9: idempotence of normalization -/

/-- C9 counterexample: unescaping can create a new entity, so normalizing
twice differs from normalizing once on `"&amp;amp;"` (the first pass yields
`"&amp;"`, the second `"&"`). -/
theorem normalize_not_idempotent_counterexample :
    normalizeText (normalizeText "&amp;amp;".toList) ≠
      normalizeText "&amp;amp;".toList := by decide

theorem pyUnescapeF_no_amp :
    ∀ (fuel : Nat) (s : List Char), '&' ∉ s → pyUnescapeF fuel s = s := by
  intro fuel
  induction fuel with
  | zero => intro s _; rfl
  | succ fuel ih =>
    intro s h
    cases s with
    | nil => rfl
    | cons c rest =>
      have hc : c ≠ '&' := fun hh => h (hh ▸ List.mem_cons_self c rest)
      simp only [pyUnescapeF]
      rw [if_neg hc, ih rest (fun hm => h (List.mem_cons_of_mem _ hm))]

theorem pyUnescape_no_amp (s : List Char) (h : '&' ∉ s) : pyUnescape s = s :=
  pyUnescapeF_no_amp _ s h

theorem collapseAux_mem (bad : Char → Bool) :
    ∀ (l : List Char) (flag : Bool) (c : Char), c ∈ collapseAux bad l flag →
      bad c = false ∨ c = ' ' := by
  intro l
  induction l with
  | nil => intro flag c h; simp [collapseAux] at h
  | cons d rest ih =>
    intro flag c h
    simp only [collapseAux] at h
    split_ifs at h with h1 h2
    · exact ih true c h
    · rcases List.mem_cons.1 h with rfl | h
      · exact Or.inr rfl
      · exact ih true c h
    · rcases List.mem_cons.1 h with rfl | h
      · exact Or.inl (by simpa using h1)
      · exact ih false c h

theorem collapseAux_head_true (bad : Char → Bool) :
    ∀ l : List Char, ∀ c ∈ (collapseAux bad l true).head?, bad c = false := by
  intro l
  induction l with
  | nil => intro c h; simp [collapseAux] at h
  | cons d rest ih =>
    intro c h
    simp only [collapseAux] at h
    split_ifs at h with h1
    · exact ih c h
    · simp only [List.head?_cons, Option.mem_some_iff] at h
      rw [← h]
      simpa using h1

theorem collapseAux_chain (bad : Char → Bool) :
    ∀ (l : List Char) (flag : Bool),
      List.Chain' (fun a b => ¬(bad a = true ∧ bad b = true))
        (collapseAux bad l flag) := by
  intro l
  induction l with
  | nil => intro flag; simp [collapseAux]
  | cons d rest ih =>
    intro flag
    simp only [collapseAux]
    split_ifs with h1 h2
    · exact ih true
    · refine List.chain'_cons'.2 ⟨fun y hy => ?_, ih true⟩
      rintro ⟨-, hby⟩
      rw [collapseAux_head_true bad rest y hy] at hby
      exact Bool.false_ne_true hby
    · refine List.chain'_cons'.2 ⟨fun y hy => ?_, ih false⟩
      rintro ⟨hbd, -⟩
      exact h1 hbd

theorem collapseAux_eq_self (bad : Char → Bool) :
    ∀ l : List Char, (∀ c ∈ l, bad c = true → c = ' ') →
      List.Chain' (fun a b => ¬(bad a = true ∧ bad b = true)) l →
      ∀ flag : Bool, (flag = true → ∀ c ∈ l.head?, bad c = false) →
      collapseAux bad l flag = l := by
  intro l
  induction l with
  | nil => intro _ _ flag _; cases flag <;> rfl
  | cons d rest ih =>
    intro hmem hchain flag hflag
    have hch := List.chain'_cons'.1 hchain
    simp only [collapseAux]
    split_ifs with h1 h2
    · exfalso
      have := hflag h2 d (by simp)
      rw [this] at h1
      exact Bool.false_ne_true h1
    · have hd : d = ' ' := hmem d (List.mem_cons_self d rest) h1
      rw [ih (fun c hc => hmem c (List.mem_cons_of_mem _ hc)) hch.2 true
        (fun _ c hc => by
          have := hch.1 c hc
          cases hbc : bad c
          · rfl
          · exact absurd ⟨h1, hbc⟩ this)]
      rw [hd]
    · rw [ih (fun c hc => hmem c (List.mem_cons_of_mem _ hc)) hch.2 false
        (fun hff => by cases hff)]

/-- `pyStrip l` is an infix-style sublist of `l`. -/
theorem pyStrip_subset (l : List Char) : pyStrip l ⊆ l := by
  intro c hc
  unfold pyStrip stripTrail stripLead at hc
  rw [List.mem_reverse] at hc
  have h1 : List.Sublist ((l.dropWhile isWS).reverse.dropWhile isWS)
      ((l.dropWhile isWS).reverse) := List.dropWhile_sublist isWS
  have hc2 := h1.subset hc
  rw [List.mem_reverse] at hc2
  exact (List.dropWhile_sublist isWS).subset hc2

theorem stripTrail_prefixOf (l : List Char) : stripTrail l <+: l := by
  have h : (l.reverse.dropWhile isWS).reverse <+: l.reverse.reverse :=
    Iff.mpr List.reverse_prefix (List.dropWhile_suffix isWS)
  rwa [List.reverse_reverse] at h

theorem pyStrip_chain {R : Char → Char → Prop} {l : List Char}
    (h : List.Chain' R l) : List.Chain' R (pyStrip l) :=
  List.Chain'.prefix (List.Chain'.suffix h (List.dropWhile_suffix isWS))
    (stripTrail_prefixOf _)

theorem stripLead_eq_self (l : List Char)
    (h : ∀ c ∈ l.head?, isWS c = false) : stripLead l = l := by
  cases l with
  | nil => rfl
  | cons c rest =>
    have := h c (by simp)
    simp [stripLead, List.dropWhile_cons, this]

theorem dropWhile_isWS_idem (y : List Char) :
    (y.dropWhile isWS).dropWhile isWS = y.dropWhile isWS := by
  have h := List.head?_dropWhile_not isWS y
  cases hz : y.dropWhile isWS with
  | nil => rfl
  | cons d rest =>
    rw [hz] at h
    simp only [List.head?_cons] at h
    simp [List.dropWhile_cons, h]

/-- `pyStrip` is idempotent. -/
theorem pyStrip_idem (l : List Char) : pyStrip (pyStrip l) = pyStrip l := by
  have hhead : ∀ c ∈ (pyStrip l).head?, isWS c = false := by
    intro c hc
    obtain ⟨t, ht⟩ := stripTrail_prefixOf (stripLead l)
    cases hps : pyStrip l with
    | nil => rw [hps] at hc; simp at hc
    | cons d rest =>
      rw [hps] at hc
      simp only [List.head?_cons, Option.mem_some_iff] at hc
      subst hc
      have hh : (stripLead l).head? = some d := by
        rw [← ht]
        show (pyStrip l ++ t).head? = some d
        rw [hps]
        rfl
      have hnot := List.head?_dropWhile_not isWS l
      unfold stripLead at hh
      rw [hh] at hnot
      exact hnot
  have h1 : stripLead (pyStrip l) = pyStrip l := stripLead_eq_self _ hhead
  have h2 : stripTrail (pyStrip l) = pyStrip l := by
    have hrev : (pyStrip l).reverse = (stripLead l).reverse.dropWhile isWS := by
      unfold pyStrip stripTrail
      rw [List.reverse_reverse]
    show ((pyStrip l).reverse.dropWhile isWS).reverse = pyStrip l
    rw [hrev, dropWhile_isWS_idem, ← hrev, List.reverse_reverse]
  show stripTrail (stripLead (pyStrip l)) = pyStrip l
  rw [h1, h2]

/-- C9 amended: normalization is idempotent on every input whose normalized
form is free of ampersands (so unescaping cannot fire again); in general a
remaining entity such as `"&amp;"` in the output breaks idempotence. -/
theorem normalize_idempotent_on_entity_free (s : List Char)
    (h : '&' ∉ normalizeText s) :
    normalizeText (normalizeText s) = normalizeText s := by
  have hmem : ∀ c ∈ normalizeText s, isWS c = true → c = ' ' := by
    intro c hc hwc
    have : c ∈ collapseRuns isWS (pyUnescape s) := pyStrip_subset _ hc
    rcases collapseAux_mem isWS (pyUnescape s) false c this with hf | hsp
    · rw [hwc] at hf; exact Bool.noConfusion hf
    · exact hsp
  have hchain : List.Chain' (fun a b => ¬(isWS a = true ∧ isWS b = true))
      (normalizeText s) :=
    pyStrip_chain (collapseAux_chain isWS (pyUnescape s) false)
  show pyStrip (collapseRuns isWS (pyUnescape (normalizeText s))) = normalizeText s
  rw [pyUnescape_no_amp _ h]
  unfold collapseRuns
  rw [collapseAux_eq_self isWS _ hmem hchain false (fun hff => by cases hff)]
  exact pyStrip_idem _

/-- Witness for C9's amended theorem on a concrete entity-free input. -/
theorem normalize_idempotent_on_entity_free_witness :
    normalizeText (normalizeText "  hello \t  world ".toList) =
      normalizeText "  hello \t  world ".toList :=
  normalize_idempotent_on_entity_free "  hello \t  world ".toList (by decide)

/-! ## Claim C5: the appended `et al.` appears exactly once -/

/-- C5 counterexample: a side whose lead party already ends in a doubled
`et al. et al.` keeps the doubling — the single collapse pass removes only
the freshly appended duplicate, so the compressed side of
`"Foo et al. et al., Bar v Baz"` ends in `et al. et al.`. -/
theorem side_etal_doubled_counterexample :
    many "Foo et al. et al., Bar".toList = true ∧
    compress_caption "Foo et al. et al., Bar v Baz".toList =
      "Foo et al. et al. v Baz".toList ∧
    etalChainTwo (sideOut "Foo et al. et al., Bar".toList) = true := by
  exact ⟨by decide, by decide, by decide⟩

theorem ws_toLower {c : Char} (h : isWS c = true) : Char.toLower c = c := by
  simp only [isWS, Bool.or_eq_true, decide_eq_true_eq] at h
  rcases h with ((((rfl | rfl) | rfl) | rfl) | rfl) | rfl <;> decide

theorem lowerStr_append (x y : List Char) :
    lowerStr (x ++ y) = lowerStr x ++ lowerStr y :=
  List.map_append _ x y

theorem etalTokenAt_length {s : List Char} {i : Nat} (h : etalTokenAt s i = true) :
    i + 6 ≤ s.length := by
  simp only [etalTokenAt, decide_eq_true_eq] at h
  have hl := congrArg List.length h
  simp only [List.length_map, List.length_take, List.length_drop] at hl
  have h6 : ("et al.".toList).length = 6 := rfl
  rw [h6] at hl
  omega

theorem collapseHitAt_decomp {s : List Char} {i : Nat}
    (h : collapseHitAt s i = true) :
    ∃ a w b, s = a ++ (w ++ b) ∧ a.length = i + 6 ∧
      lowerStr (a.drop i) = "et al.".toList ∧ (∀ c ∈ w, isWS c = true) ∧
      lowerStr b = "et al.".toList := by
  simp only [collapseHitAt, Bool.and_eq_true] at h
  obtain ⟨h1, h2⟩ := h
  have hle : i + 6 ≤ s.length := etalTokenAt_length h1
  simp only [etalTokenAt, decide_eq_true_eq] at h1 h2
  refine ⟨s.take (i + 6), (s.drop (i + 6)).takeWhile isWS,
    (s.drop (i + 6)).dropWhile isWS, ?_, ?_, ?_, ?_, h2⟩
  · rw [List.takeWhile_append_dropWhile, List.take_append_drop]
  · simp only [List.length_take]; omega
  · show ((s.take (i + 6)).drop i).map Char.toLower = _
    rw [List.drop_take, Nat.add_sub_cancel_left]
    exact h1
  · intro c hc
    exact List.all_eq_true.1 (List.all_takeWhile) c hc

theorem etalChainTwoWs_of_decomp {x a w b m : List Char} {j : Nat}
    (hx : x = a ++ (w ++ (b ++ m))) (ha : a.length = j + 6)
    (he1 : lowerStr (a.drop j) = "et al.".toList)
    (hw : ∀ c ∈ w, isWS c = true)
    (he2 : lowerStr b = "et al.".toList)
    (hm : ∀ c ∈ m, isWS c = true) :
    etalChainTwoWs x = true := by
  have hb6 : b.length = 6 := by
    have := congrArg List.length he2
    simpa only [lowerStr, List.length_map] using this
  have hadj6 : (a.drop j).length = 6 := by
    simp only [List.length_drop]; omega
  unfold etalChainTwoWs
  rw [List.any_eq_true]
  refine ⟨j, List.mem_range.2 ?_, ?_⟩
  · subst hx
    simp only [List.length_append]
    omega
  · rw [Bool.and_eq_true]
    constructor
    · simp only [etalTokenAt, decide_eq_true_eq]
      subst hx
      rw [List.drop_append_of_le_length (by omega)]
      rw [List.take_left' hadj6]
      exact he1
    · subst hx
      rw [List.drop_left' ha]
      rw [List.dropWhile_append_of_pos hw]
      have hdw : (b ++ m).dropWhile isWS = b ++ m := by
        cases b with
        | nil => simp at hb6
        | cons b0 brest =>
          have hb0 : Char.toLower b0 = 'e' := by
            have hhd := congrArg List.head? he2
            rw [show "et al.".toList =
              'e' :: 't' :: ' ' :: 'a' :: 'l' :: '.' :: ([] : List Char)
              from by decide] at hhd
            simpa only [lowerStr, List.map_cons, List.head?_cons,
              Option.some.injEq] using hhd
          have hws : isWS b0 = false := by
            cases hwc : isWS b0
            · rfl
            · rw [ws_toLower hwc] at hb0
              exact absurd (hb0 ▸ hwc) (by decide)
          simp [List.cons_append, List.dropWhile_cons, hws]
      rw [hdw]
      rw [Bool.and_eq_true, decide_eq_true_eq]
      constructor
      · rw [List.take_left' hb6]; exact he2
      · rw [List.drop_left' hb6]
        exact List.all_eq_true.2 hm

/-- C5 amended: for every side that `many` classifies as multi-party (two
or more comma/and-separated names, an existing `et al.`, or length above
60), the compressed side ends in `et al.` (case-insensitively) and is not
a doubled `et al. (ws) et al.` — provided the extracted lead party does not
itself already end in such a doubled chain, which the single collapse pass
of the source preserves (see the counterexample). -/
theorem side_many_etal_once (side : List Char) (hm : many side = true)
    (hlead : etalChainTwoWs (first_party side) = false) :
    ("et al.".toList <:+ lowerStr (sideOut side)) ∧
    etalChainTwo (sideOut side) = false := by
  have hs : sideOut side =
      collapseEtal (first_party side ++ " et al.".toList) := by
    simp [sideOut, hm]
  set lead := first_party side with hleaddef
  set s : List Char := lead ++ " et al.".toList with hsdef
  rcases hfind : (List.range s.length).find? (fun i => collapseHitAt s i)
    with _ | i
  · -- no collapse: result is lead ++ " et al."
    have hcol : collapseEtal s = s := by
      unfold collapseEtal
      rw [hfind]
    rw [hs, hcol]
    constructor
    · rw [hsdef, lowerStr_append]
      have h1 : "et al.".toList <:+ lowerStr " et al.".toList := by decide
      exact h1.trans (List.suffix_append _ _)
    · unfold etalChainTwo
      rw [List.any_eq_false]
      exact fun x hx => List.find?_eq_none.1 hfind x hx
  · -- leftmost collapse at i: result is s.take (i + 6)
    have hhit : collapseHitAt s i = true := List.find?_some hfind
    have hcol : collapseEtal s = s.take (i + 6) := by
      unfold collapseEtal
      rw [hfind]
    obtain ⟨a, w, b, hsplit, halen, he1, hw, he2⟩ := collapseHitAt_decomp hhit
    have ha_take : s.take (i + 6) = a := by
      rw [hsplit]; exact List.take_left' halen
    rw [hs, hcol, ha_take]
    have hb6 : b.length = 6 := by
      have := congrArg List.length he2
      simpa only [lowerStr, List.length_map] using this
    have heq2 : a ++ (w ++ b) = lead ++ " et al.".toList := by
      rw [← hsplit]
    by_cases hwnil : w = []
    · -- the group token would have to end in the appended space: impossible
      exfalso
      rw [hwnil] at heq2
      simp only [List.nil_append] at heq2
      have hre : lead ++ " et al.".toList =
          (lead ++ [' ']) ++ "et al.".toList := by
        rw [List.append_assoc]; rfl
      rw [hre] at heq2
      have hinj := List.append_inj' heq2 (by rw [hb6]; rfl)
      have hlast1 : (lowerStr a).getLast? = some ' ' := by
        rw [hinj.1, lowerStr_append]
        rw [show lowerStr [' '] = [' '] from by decide, List.getLast?_concat]
      have hlast2 : (lowerStr a).getLast? = some '.' := by
        conv_lhs => rw [← List.take_append_drop i a]
        rw [lowerStr_append, he1,
          show "et al.".toList = "et al".toList ++ ['.'] from by decide,
          ← List.append_assoc, List.getLast?_concat]
      rw [hlast1] at hlast2
      exact absurd (Option.some.inj hlast2) (by decide)
    · have hwlen : 1 ≤ w.length := by
        cases hwe : w with
        | nil => exact absurd hwe hwnil
        | cons _ _ => simp [hwe]
      constructor
      · rw [← he1]
        simp only [lowerStr]
        exact (List.drop_suffix i a).map Char.toLower
      · cases hc2 : etalChainTwo a with
        | false => rfl
        | true =>
          exfalso
          unfold etalChainTwo at hc2
          obtain ⟨j, hjmem, hjhit⟩ := List.any_eq_true.1 hc2
          obtain ⟨a', w', b', hsplit', ha', he1', hw', he2'⟩ :=
            collapseHitAt_decomp hjhit
          rcases List.append_eq_append_iff.1 heq2 with
            ⟨m, hm1, hm2⟩ | ⟨c', hc1, hc2'⟩
          · -- lead = a ++ m and w ++ b = m ++ " et al."
            have hmws : ∀ c ∈ m, isWS c = true := by
              rcases List.append_eq_append_iff.1 hm2.symm with
                ⟨y, hy1, _⟩ | ⟨y, _, hy2⟩
              · intro c hc
                exact hw c (hy1 ▸ List.mem_append_left _ hc)
              · exfalso
                have := congrArg List.length hy2
                simp only [List.length_append] at this
                have h7 : (" et al.".toList).length = 7 := rfl
                omega
            have hleadsplit : lead = a' ++ (w' ++ (b' ++ m)) := by
              rw [hm1, hsplit']
              simp [List.append_assoc]
            exact absurd
              (etalChainTwoWs_of_decomp hleadsplit ha' he1' hw' he2' hmws)
              (by simp [hlead])
          · -- a = lead ++ c' with c' forced empty
            have h7 : (" et al.".toList).length = 7 := rfl
            have hlen := congrArg List.length hc2'
            simp only [List.length_append, h7] at hlen
            have hc'nil : c' = [] := by
              cases c' with
              | nil => rfl
              | cons _ _ => simp only [List.length_cons] at hlen; omega
            rw [hc'nil, List.append_nil] at hc1
            have hleadsplit : lead = a' ++ (w' ++ (b' ++ [])) := by
              rw [← hc1, hsplit']
              simp
            exact absurd
              (etalChainTwoWs_of_decomp hleadsplit ha' he1' hw' he2'
                (fun c hc => absurd hc (List.not_mem_nil c)))
              (by simp [hlead])

/-- Witness for C5's amended theorem on a three-party side. -/
theorem side_many_etal_once_witness :
    ("et al.".toList <:+
      lowerStr (sideOut "Kadrey, Silverman and Golden".toList)) ∧
    etalChainTwo (sideOut "Kadrey, Silverman and Golden".toList) = false :=
  side_many_etal_once "Kadrey, Silverman and Golden".toList (by decide)
    (by decide)

/-! ## Claim C3: dedupe order-independence -/

/-- C3 counterexample: two distinct records sharing a key, the same source
and equal summary lengths tie under `prefer_source`, and `dedupe` keeps
whichever arrived first — so permuting the input changes the output set. -/
theorem dedupe_order_dependent_counterexample :
    dedupe
        [(⟨"X v Y".toList, "aa".toList, "WIRED".toList, "u1".toList⟩ : CaseRecord),
         ⟨"X v Y".toList, "bb".toList, "WIRED".toList, "u2".toList⟩] =
      [⟨"X v Y".toList, "aa".toList, "WIRED".toList, "u1".toList⟩] ∧
    dedupe
        [(⟨"X v Y".toList, "bb".toList, "WIRED".toList, "u2".toList⟩ : CaseRecord),
         ⟨"X v Y".toList, "aa".toList, "WIRED".toList, "u1".toList⟩] =
      [⟨"X v Y".toList, "bb".toList, "WIRED".toList, "u2".toList⟩] ∧
    ¬ (dedupe
        [(⟨"X v Y".toList, "aa".toList, "WIRED".toList, "u1".toList⟩ : CaseRecord),
         ⟨"X v Y".toList, "bb".toList, "WIRED".toList, "u2".toList⟩]).Perm
      (dedupe
        [(⟨"X v Y".toList, "bb".toList, "WIRED".toList, "u2".toList⟩ : CaseRecord),
         ⟨"X v Y".toList, "aa".toList, "WIRED".toList, "u1".toList⟩]) := by
  exact ⟨by decide, by decide, by decide⟩

/-- `prefer_source` is asymmetric (it is a strict lexicographic order). -/
theorem prefer_source_asymm {x y : CaseRecord}
    (h : prefer_source x y = true) : prefer_source y x = false := by
  cases hp : prefer_source y x
  · rfl
  · exfalso
    rcases (prefer_source_eq_true_iff x y).1 h with h1 | ⟨h1, h2⟩ <;>
      rcases (prefer_source_eq_true_iff y x).1 hp with h3 | ⟨h3, h4⟩ <;> omega

/-- `prefer_source` is transitive. -/
theorem prefer_source_trans {x y z : CaseRecord}
    (h1 : prefer_source x y = true) (h2 : prefer_source y z = true) :
    prefer_source x z = true := by
  apply (prefer_source_eq_true_iff x z).2
  rcases (prefer_source_eq_true_iff x y).1 h1 with a1 | ⟨a1, a2⟩ <;>
    rcases (prefer_source_eq_true_iff y z).1 h2 with b1 | ⟨b1, b2⟩ <;>
    first
      | (left; omega)
      | (right; exact ⟨by omega, by omega⟩)

/-- Inserting two records into one key slot commutes when they do not tie. -/
theorem dinsert_comm (x y : CaseRecord)
    (htot : x = y ∨ prefer_source x y = true ∨ prefer_source y x = true) :
    ∀ c, dinsert (dinsert c x) y = dinsert (dinsert c y) x := by
  intro c
  rcases htot with rfl | hxy | hyx
  · rfl
  · have hyx := prefer_source_asymm hxy
    cases c with
    | none => simp [dinsert, hxy, hyx]
    | some z =>
      by_cases hxz : prefer_source x z = true <;>
        by_cases hyz : prefer_source y z = true
      · simp [dinsert, hxz, hyz, hxy, hyx]
      · simp [dinsert, hxz, hyz, hxy, hyx]
      · exact absurd (prefer_source_trans hxy hyz) hxz
      · simp [dinsert, hxz, hyz]
  · have hxy := prefer_source_asymm hyx
    cases c with
    | none => simp [dinsert, hxy, hyx]
    | some z =>
      by_cases hxz : prefer_source x z = true <;>
        by_cases hyz : prefer_source y z = true
      · simp [dinsert, hxz, hyz, hxy, hyx]
      · exact absurd (prefer_source_trans hyx hxz) hyz
      · simp [dinsert, hxz, hyz, hxy, hyx]
      · simp [dinsert, hxz, hyz]

/-- The per-key dedupe step is right-commutative for tie-free pairs. -/
theorem keyStep_comm (k : List Char) (x y : CaseRecord)
    (hty : normKey x.title = normKey y.title → x ≠ y →
      prefer_source x y = true ∨ prefer_source y x = true)
    (c : Option CaseRecord) :
    keyStep k (keyStep k c x) y = keyStep k (keyStep k c y) x := by
  unfold keyStep
  by_cases hx : normKey x.title = k ∧ k ≠ [] <;>
    by_cases hy : normKey y.title = k ∧ k ≠ []
  · simp only [if_pos hx, if_pos hy]
    apply dinsert_comm
    by_cases hxy : x = y
    · exact Or.inl hxy
    · exact Or.inr (hty (hx.1.trans hy.1.symm) hxy)
  · simp only [if_pos hx, if_neg hy]
  · simp only [if_neg hx, if_pos hy]
  · simp only [if_neg hx, if_neg hy]

theorem assocFind_assocPut (k k' : List Char) (v : CaseRecord)
    (acc : List (List Char × CaseRecord)) :
    assocFind k (assocPut k' v acc) =
      if k' = k then some v else assocFind k acc := by
  induction acc with
  | nil => simp [assocPut, assocFind]
  | cons e rest ih =>
    obtain ⟨ke, ve⟩ := e
    simp only [assocPut]
    by_cases h1 : ke = k'
    · rw [if_pos h1]
      by_cases h2 : k' = k
      · simp [assocFind, h2]
      · have hkek : ¬ ke = k := fun h => h2 (h1.symm.trans h)
        simp [assocFind, h2, hkek]
    · rw [if_neg h1]
      simp only [assocFind, ih]
      by_cases h2 : ke = k
      · have hk'k : ¬ k' = k := fun h => h1 (h2.trans h.symm)
        simp [h2, hk'k]
      · simp [h2]

/-- One dedupe step changes the record found under `k` exactly by
`keyStep k`. -/
theorem assocFind_dstep (acc : List (List Char × CaseRecord))
    (it : CaseRecord) (k : List Char) :
    assocFind k (dstep acc it) = keyStep k (assocFind k acc) it := by
  unfold dstep keyStep
  dsimp only
  by_cases hke : normKey it.title = []
  · rw [if_pos hke, if_neg (fun hc => hc.2 (hc.1.symm.trans hke))]
  · rw [if_neg hke]
    rcases hfind : assocFind (normKey it.title) acc with _ | cur <;> dsimp only
    · rw [assocFind_assocPut]
      by_cases hkk : normKey it.title = k
      · rw [if_pos hkk, if_pos ⟨hkk, fun h => hke (hkk.trans h)⟩, ← hkk, hfind]
        rfl
      · rw [if_neg hkk, if_neg (fun hc => hkk hc.1)]
    · by_cases hpref : prefer_source it cur = true
      · rw [if_pos hpref, assocFind_assocPut]
        by_cases hkk : normKey it.title = k
        · rw [if_pos hkk, if_pos ⟨hkk, fun h => hke (hkk.trans h)⟩, ← hkk, hfind]
          simp [dinsert, hpref]
        · rw [if_neg hkk, if_neg (fun hc => hkk hc.1)]
      · rw [if_neg hpref]
        by_cases hkk : normKey it.title = k
        · rw [if_pos ⟨hkk, fun h => hke (hkk.trans h)⟩, ← hkk, hfind]
          simp [dinsert, hpref]
        · rw [if_neg (fun hc => hkk hc.1)]

/-- The whole dedupe fold, projected to one key, is a fold of `keyStep`. -/
theorem foldl_dstep_assocFind (l : List CaseRecord) :
    ∀ (acc : List (List Char × CaseRecord)) (k : List Char),
      assocFind k (l.foldl dstep acc) = l.foldl (keyStep k) (assocFind k acc) := by
  induction l with
  | nil => intro acc k; rfl
  | cons it rest ih =>
    intro acc k
    simp only [List.foldl_cons]
    rw [ih, assocFind_dstep]

theorem assocFind_eq_none_iff (k : List Char)
    (acc : List (List Char × CaseRecord)) :
    assocFind k acc = none ↔ k ∉ acc.map Prod.fst := by
  induction acc with
  | nil => simp [assocFind]
  | cons e rest ih =>
    obtain ⟨ke, ve⟩ := e
    simp only [assocFind, List.map_cons, List.mem_cons]
    by_cases h : ke = k
    · rw [if_pos h]
      constructor
      · intro hh; exact Option.noConfusion hh
      · intro hh; exact absurd (Or.inl h.symm) hh
    · rw [if_neg h, ih]
      constructor
      · rintro hnot (h1 | h2)
        · exact h h1.symm
        · exact hnot h2
      · intro hnot h1
        exact hnot (Or.inr h1)

theorem keys_assocPut (k : List Char) (v : CaseRecord)
    (acc : List (List Char × CaseRecord)) :
    (assocPut k v acc).map Prod.fst =
      if k ∈ acc.map Prod.fst then acc.map Prod.fst
      else acc.map Prod.fst ++ [k] := by
  induction acc with
  | nil => simp [assocPut]
  | cons e rest ih =>
    obtain ⟨ke, ve⟩ := e
    simp only [assocPut, List.map_cons, List.mem_cons]
    by_cases h1 : ke = k
    · rw [if_pos h1, if_pos (Or.inl h1.symm)]
      simp only [List.map_cons]
      rw [h1]
    · rw [if_neg h1]
      simp only [List.map_cons, ih]
      by_cases h2 : k ∈ rest.map Prod.fst
      · rw [if_pos h2, if_pos (Or.inr h2)]
      · rw [if_neg h2, if_neg ?_]
        · simp
        · rintro (ha | hb)
          · exact h1 ha.symm
          · exact h2 hb

theorem keysNodup_dstep (acc : List (List Char × CaseRecord)) (it : CaseRecord)
    (h : (acc.map Prod.fst).Nodup) : ((dstep acc it).map Prod.fst).Nodup := by
  unfold dstep
  dsimp only
  split_ifs with hk
  · exact h
  rcases hfind : assocFind (normKey it.title) acc with _ | cur <;> dsimp only
  · rw [keys_assocPut,
      if_neg ((assocFind_eq_none_iff _ acc).1 hfind)]
    rw [List.nodup_append]
    refine ⟨h, List.nodup_singleton _, ?_⟩
    intro a ha hb
    rw [List.mem_singleton] at hb
    subst hb
    exact (assocFind_eq_none_iff _ acc).1 hfind ha
  · split_ifs with hpref
    · rw [keys_assocPut, if_pos ?_]
      · exact h
      · by_contra hmem
        rw [← assocFind_eq_none_iff] at hmem
        rw [hmem] at hfind
        cases hfind
    · exact h

theorem keysNodup_foldl (l : List CaseRecord) :
    ∀ acc : List (List Char × CaseRecord), (acc.map Prod.fst).Nodup →
      ((l.foldl dstep acc).map Prod.fst).Nodup := by
  induction l with
  | nil => intro acc h; exact h
  | cons it rest ih =>
    intro acc h
    exact ih _ (keysNodup_dstep acc it h)

theorem assocFind_of_mem_nodup {k : List Char} {v : CaseRecord}
    {acc : List (List Char × CaseRecord)} (hmem : (k, v) ∈ acc)
    (hnd : (acc.map Prod.fst).Nodup) : assocFind k acc = some v := by
  induction acc with
  | nil => simp at hmem
  | cons e rest ih =>
    obtain ⟨ke, ve⟩ := e
    simp only [List.map_cons, List.nodup_cons] at hnd
    rcases List.mem_cons.1 hmem with h1 | h1
    · injection h1 with h1a h1b
      subst h1a
      subst h1b
      simp [assocFind]
    · simp only [assocFind]
      by_cases h2 : ke = k
      · exfalso
        subst h2
        exact hnd.1 (List.mem_map.2 ⟨(ke, v), h1, rfl⟩)
      · rw [if_neg h2]
        exact ih h1 hnd.2

theorem mem_of_assocFind {k : List Char} {v : CaseRecord}
    {acc : List (List Char × CaseRecord)} (h : assocFind k acc = some v) :
    (k, v) ∈ acc := by
  induction acc with
  | nil => simp [assocFind] at h
  | cons e rest ih =>
    obtain ⟨ke, ve⟩ := e
    simp only [assocFind] at h
    split_ifs at h with h1
    · obtain rfl := Option.some.inj h
      subst h1
      exact List.mem_cons_self _ _
    · exact List.mem_cons_of_mem _ (ih h)

/-- Membership in the dedupe output is lookup under the record's own key. -/
theorem mem_dedupe_iff (l : List CaseRecord) (x : CaseRecord) :
    x ∈ dedupe l ↔
      assocFind (normKey x.title) (l.foldl dstep []) = some x := by
  constructor
  · intro hx
    obtain ⟨e, he, hsnd⟩ := List.mem_map.1 hx
    have hg := goodAcc_foldl l [] (by intro e h; simp at h) e he
    have hnd := keysNodup_foldl l [] (by simp)
    have hme : (normKey x.title, x) ∈ l.foldl dstep [] := by
      have he2 : e = (normKey x.title, x) := by
        have h1 : e.1 = normKey x.title := by rw [hg.1, hsnd]
        exact Prod.ext h1 hsnd
      rw [← he2]
      exact he
    exact assocFind_of_mem_nodup hme hnd
  · intro h
    exact List.mem_map.2 ⟨(normKey x.title, x), mem_of_assocFind h, rfl⟩

/-- The dedupe output never contains a duplicate record. -/
theorem dedupe_nodup (l : List CaseRecord) : (dedupe l).Nodup := by
  have hg := goodAcc_foldl l [] (by intro e h; simp at h)
  have hnd := keysNodup_foldl l [] (by simp)
  have hacc : (l.foldl dstep []).Nodup := List.Nodup.of_map Prod.fst hnd
  refine List.Nodup.map_on ?_ hacc
  intro e1 h1 e2 h2 hsnd
  have hf : e1.1 = e2.1 := by
    rw [(hg e1 h1).1, (hg e2 h2).1, hsnd]
  exact Prod.ext hf hsnd

/-- C3 amended: `dedupe` is order-independent (permuting the input permutes
the output) provided no two distinct same-key records in the input tie
under `prefer_source`; ties (equal source priority and equal summary
length) are resolved by arrival order, as the counterexample shows. -/
theorem dedupe_perm_invariant (l₁ l₂ : List CaseRecord)
    (hp : l₁.Perm l₂) (ht : NoTies l₁) :
    (dedupe l₁).Perm (dedupe l₂) := by
  rw [List.perm_ext_iff_of_nodup (dedupe_nodup l₁) (dedupe_nodup l₂)]
  intro x
  rw [mem_dedupe_iff, mem_dedupe_iff,
    foldl_dstep_assocFind, foldl_dstep_assocFind]
  have hcomm : ∀ a ∈ l₁, ∀ b ∈ l₁, ∀ c : Option CaseRecord,
      keyStep (normKey x.title) (keyStep (normKey x.title) c a) b =
        keyStep (normKey x.title) (keyStep (normKey x.title) c b) a :=
    fun a ha b hb c => keyStep_comm _ a b (ht a ha b hb) c
  rw [hp.foldl_eq' hcomm]

/-- Witness for C3's amended theorem on a concrete tie-free pair. -/
theorem dedupe_perm_invariant_witness :
    (dedupe
        [(⟨"Doe v Roe".toList, "s1".toList, "WIRED".toList, "u1".toList⟩ : CaseRecord),
         ⟨"doe v roe!".toList, "s2".toList, "McKool Smith".toList, "u2".toList⟩]).Perm
      (dedupe
        [(⟨"doe v roe!".toList, "s2".toList, "McKool Smith".toList, "u2".toList⟩ : CaseRecord),
         ⟨"Doe v Roe".toList, "s1".toList, "WIRED".toList, "u1".toList⟩]) :=
  dedupe_perm_invariant _ _ (by decide) (by unfold NoTies; decide)

end CaseTracker
